import Mathlib

/-!
Verification development for the fileAutoArrange scan → classify → aggregate
core (src/fileScanner.js: FileScanner and FileClassifier, plus
config/classification.json).

The JavaScript source is shallowly embedded: JS numbers that hold byte sizes
become Nat, epoch-millisecond timestamps become Int, JS 32-bit signed
arithmetic (used by the string hash) is modelled with an explicit toInt32,
JS objects used as insertion-ordered maps become association lists, and the
in-place stable Array.prototype.sort becomes List.mergeSort (stable by the
ECMAScript specification, and List.mergeSort is the unique stable sort for a
total transitive comparator).  Fallible operations (a push onto a missing
category key throws a TypeError in JS) return Except/Option.  Enrichment
fields no claim mentions (mimeType, relativeAge, isExecutable, isArchive,
isMedia, accessedTime) are omitted from the record model.
-/

namespace FileArrange

/-- One filesystem entry as produced by the directory listing
(`mcpClient.listDirectory` items with `isFile = true`): the fields of the
basic file info object before `getDetailedFileInfo` enrichment. -/
structure BasicFileInfo where
  path : String
  name : String
  extension : String
  size : Nat
  createdTime : Int
  modifiedTime : Int
deriving DecidableEq

/-- A FileRecord after (possible) enrichment.  `hash` is `none` for a record
that never went through `getDetailedFileInfo` (in JS the field is then
`undefined`); `category` is set by the classifier, `sizeCategory` by
enrichment. -/
structure FileRecord where
  path : String
  name : String
  extension : String
  size : Nat
  createdTime : Int
  modifiedTime : Int
  hash : Option String
  category : Option String
  sizeCategory : Option String
deriving DecidableEq

/-! ### Shipped configuration (config/classification.json) -/

/-- `fileCategories` of config/classification.json: category name paired with
its extension list, in JSON (= JS object insertion) order. -/
def fileCategories : List (String × List String) :=
  [("文档类", [".pdf", ".doc", ".docx", ".txt", ".rtf", ".md", ".odt", ".pages"]),
   ("图片类", [".jpg", ".jpeg", ".png", ".gif", ".bmp", ".svg", ".tiff", ".ico", ".webp"]),
   ("视频类", [".mp4", ".avi", ".mkv", ".mov", ".wmv", ".flv", ".webm", ".m4v"]),
   ("音频类", [".mp3", ".wav", ".flac", ".aac", ".wma", ".ogg", ".m4a"]),
   ("程序类", [".exe", ".msi", ".dmg", ".deb", ".rpm", ".app", ".apk"]),
   ("压缩包", [".zip", ".rar", ".7z", ".tar", ".gz", ".bz2", ".xz"]),
   ("代码类", [".js", ".py", ".java", ".cpp", ".c", ".cs", ".php", ".html", ".css", ".json", ".xml"]),
   ("数据库", [".db", ".sqlite", ".mdb", ".accdb", ".sql"]),
   ("电子表格", [".xlsx", ".xls", ".csv", ".ods"]),
   ("演示文稿", [".pptx", ".ppt", ".odp", ".key"]),
   ("其他类", [])]

/-- `sizeCategories` of config/classification.json: bucket name with its
`min` and `max` (both Int, `max = -1` meaning unbounded), in JSON order. -/
def sizeCategories : List (String × Int × Int) :=
  [("微小", 0, 1024),
   ("小", 1024, 1048576),
   ("中", 1048576, 104857600),
   ("大", 104857600, 1073741824),
   ("巨大", 1073741824, -1)]

/-! ### FileScanner.getSizeCategory -/

/-- The bucket-match test of `FileScanner.getSizeCategory`:
`size >= range.min && (range.max === -1 || size <= range.max)`. -/
def bucketMatches (size : Nat) (mn mx : Int) : Bool :=
  decide (mn ≤ (size : Int) ∧ (mx = -1 ∨ (size : Int) ≤ mx))

/-- The `for (const [category, range] of Object.entries(sizeCategories))`
loop of `getSizeCategory`: first matching bucket wins, fallback "未知". -/
def findSizeCategory : List (String × Int × Int) → Nat → String
  | [], _ => "未知"
  | (category, mn, mx) :: rest, size =>
    if bucketMatches size mn mx then category else findSizeCategory rest size

/-- `FileScanner.getSizeCategory` with the shipped size-bucket table
(the configuration is assumed loaded, as in the normal pipeline). -/
def getSizeCategory (size : Nat) : String :=
  findSizeCategory sizeCategories size

/-- All shipped buckets matching a given size (to count how many match). -/
def matchingBuckets (size : Nat) : List (String × Int × Int) :=
  sizeCategories.filter (fun c => bucketMatches size c.2.1 c.2.2)

/-! ### FileScanner.calculateFileHash (the JS string hash) -/

/-- JS ToInt32: wrap an integer into [-2^31, 2^31). -/
def toInt32 (n : Int) : Int :=
  (n + 2147483648) % 4294967296 - 2147483648

/-- One iteration of the hash loop:
`hash = ((hash << 5) - hash) + char; hash = hash & hash;`.
`hash << 5` is 32-bit (`toInt32 (hash * 32)`), the subtraction and addition
are exact, and `hash & hash` coerces back to Int32. -/
def hashStep (hash : Int) (c : Nat) : Int :=
  toInt32 (toInt32 (hash * 32) - hash + c)

/-- The hash loop over a string's code units, starting from 0.  For the
ASCII strings the scanner hashes, `Char.toNat` agrees with JS `charCodeAt`. -/
def jsStringHash (s : String) : Int :=
  s.data.foldl (fun h c => hashStep h c.toNat) 0

/-- Base-36 digit character, as produced by JS `Number.prototype.toString(36)`
(lower case). -/
def b36digit (d : Nat) : Char :=
  if d < 10 then Char.ofNat (48 + d) else Char.ofNat (87 + d)

/-- Base-36 digits of a natural number, most significant first, with
structural fuel (`fuel ≥ n + 1` always suffices since `n / 36 < n`). -/
def natToB36Aux : Nat → Nat → List Char
  | 0, _ => []
  | fuel + 1, n =>
    if n < 36 then [b36digit n]
    else natToB36Aux fuel (n / 36) ++ [b36digit (n % 36)]

/-- Base-36 digits of a natural number, most significant first
(`(0).toString(36) = "0"`). -/
def natToB36 (n : Nat) : List Char :=
  natToB36Aux (n + 1) n

/-- JS `Number.prototype.toString(36)` on a (32-bit) integer. -/
def intToB36 (i : Int) : String :=
  if i < 0 then String.mk ('-' :: natToB36 i.natAbs) else String.mk (natToB36 i.toNat)

/-- `FileScanner.calculateFileHash`: hash of
`` `${filePath}:${stats.size}:${stats.mtime.getTime()}` `` rendered in base 36.
The stat metadata is the same snapshot the record's `size`/`modifiedTime`
came from, so the model passes them in directly; the `Math.random` fallback
(stat failure) cannot occur in the pure model. -/
def calculateFileHash (filePath : String) (size : Nat) (mtimeMs : Int) : String :=
  intToB36 (jsStringHash (filePath ++ ":" ++ toString size ++ ":" ++ toString mtimeMs))

/-! ### FileScanner scanning (scanDirectory / isRecentFile) -/

/-- A filesystem tree as the simulated remote filesystem presents it:
`mcpClient.listDirectory` on a directory path returns its children. -/
inductive FSEntry where
  | file (info : BasicFileInfo)
  | dir (path : String) (children : List FSEntry)

/-- `FileScanner.isRecentFile`: created or modified at/after the cutoff. -/
def isRecentFile (info : BasicFileInfo) (cutoff : Int) : Bool :=
  decide (cutoff ≤ info.createdTime) || decide (cutoff ≤ info.modifiedTime)

/-- `FileScanner.getDetailedFileInfo`: spread of the basic info plus the
derived fields the claims mention (hash, sizeCategory); `category` starts
null.  Timestamps, size, name, path and extension are copied unchanged. -/
def getDetailedFileInfo (b : BasicFileInfo) : FileRecord :=
  { path := b.path
    name := b.name
    extension := b.extension
    size := b.size
    createdTime := b.createdTime
    modifiedTime := b.modifiedTime
    hash := some (calculateFileHash b.path b.size b.modifiedTime)
    category := none
    sizeCategory := some (getSizeCategory b.size) }

mutual

/-- `FileScanner.scanDirectory(directoryPath, cutoffDate, depth)`: prune an
excluded directory (`shouldExcludePath`, abstracted as a predicate), else
process the directory listing.  `maxDepth` is the source constant 10. -/
def scanDirectory (excl : String → Bool) (cutoff : Int)
    (directoryPath : String) (children : List FSEntry) (depth : Nat) :
    List FileRecord :=
  if excl directoryPath then [] else scanItems excl cutoff children depth

/-- The `for (const item of directoryContents)` loop of `scanDirectory`:
files pass the cutoff filter and are enriched; subdirectories are recursed
into only while `depth < maxDepth`. -/
def scanItems (excl : String → Bool) (cutoff : Int) :
    List FSEntry → Nat → List FileRecord
  | [], _ => []
  | .file b :: rest, depth =>
    (if isRecentFile b cutoff then [getDetailedFileInfo b] else []) ++
      scanItems excl cutoff rest depth
  | .dir q cs :: rest, depth =>
    (if depth < 10 then scanDirectory excl cutoff q cs (depth + 1) else []) ++
      scanItems excl cutoff rest depth

end

/-! ### FileScanner.removeDuplicates -/

/-- The Map key of `removeDuplicates`: `file.hash || file.path` (an absent
hash — and, by JS truthiness, an empty-string hash — falls back to the
path). -/
def dedupKey (f : FileRecord) : String :=
  match f.hash with
  | some h => if h = "" then f.path else h
  | none => f.path

/-- One iteration of the `for (const file of files)` loop of
`removeDuplicates`: `if (!uniqueFiles.has(key)) uniqueFiles.set(key, file)`,
carried as (values in insertion order, keys in insertion order). -/
def removeDupStep (acc : List FileRecord × List String) (f : FileRecord) :
    List FileRecord × List String :=
  let key := dedupKey f
  if key ∈ acc.2 then acc else (acc.1 ++ [f], acc.2 ++ [key])

/-- `FileScanner.removeDuplicates`: insert into a Map keyed by `dedupKey`
only when the key is unseen; `Array.from(map.values())` returns the kept
records in insertion order. -/
def removeDuplicates (files : List FileRecord) : List FileRecord :=
  (files.foldl removeDupStep ([], [])).1

/-- Modelled from the spec: "first-seen record per key wins, later
collisions are dropped" — the structural first-occurrence filter, carrying
the set of already-seen keys.  Used only to compare `removeDuplicates`
against the spec's description. -/
def firstSeenSpec (seen : List String) : List FileRecord → List FileRecord
  | [] => []
  | f :: fs =>
    if dedupKey f ∈ seen then firstSeenSpec seen fs
    else f :: firstSeenSpec (dedupKey f :: seen) fs

/-! ### FileClassifier.classifyFile -/

/-- JS `String.prototype.toLowerCase` restricted to what the pipeline feeds
it (file extensions): lower-case each character (ASCII letters). -/
def toLowerStr (s : String) : String :=
  String.mk (s.data.map Char.toLower)

/-- The `for (const [categoryName, categoryConfig] of Object.entries(...))`
loop of `classifyFile`: first category whose extension list contains the
lower-cased extension; fallback "其他类". -/
def findCategory : List (String × List String) → String → String
  | [], _ => "其他类"
  | (categoryName, exts) :: rest, e =>
    if e ∈ exts then categoryName else findCategory rest e

/-- `FileClassifier.classifyFile` over an arbitrary category table:
no extension (empty, or in JS a missing/falsy field) goes to "其他类",
otherwise the first matching category in declared order wins. -/
def classifyFileWith (cats : List (String × List String)) (f : FileRecord) : String :=
  if f.extension = "" then "其他类"
  else findCategory cats (toLowerStr f.extension)

/-- `FileClassifier.classifyFile` with the shipped `fileCategories` table. -/
def classifyFile (f : FileRecord) : String :=
  classifyFileWith fileCategories f

/-! ### FileClassifier.classifyFiles -/

/-- The classification result built by `classifyFiles` (the `statistics`
and `summary` are computed from it by separate functions below, exactly as
`generateStatistics` reads them off the built result). -/
structure ClassificationResult where
  categories : List (String × List FileRecord)
  totalFiles : Nat
  totalSize : Nat
deriving DecidableEq

/-- `classificationResult.categories[category].push(file)`: append to the
list stored under a key of the insertion-ordered object; `none` models the
TypeError thrown when the key is absent (push of undefined). -/
def pushCat :
    List (String × List FileRecord) → String → FileRecord →
    Option (List (String × List FileRecord))
  | [], _, _ => none
  | (k, fs) :: rest, cat, f =>
    if k = cat then some ((k, fs ++ [f]) :: rest)
    else match pushCat rest cat f with
      | none => none
      | some rest2 => some ((k, fs) :: rest2)

/-- The result object as initialized at the top of `classifyFiles`: one
empty list per configured category (in configuration order), `totalFiles`
fixed to the input length up front. -/
def initResult (files : List FileRecord) : ClassificationResult :=
  { categories := fileCategories.map (fun c => (c.1, ([] : List FileRecord)))
    totalFiles := files.length
    totalSize := 0 }

/-- The per-file try/catch body of `classifyFiles`, over an arbitrary
(possibly failing) per-record classifier `cf`.  Try: classify, set
`file.category`, push, add to `totalSize`.  Catch (classifier threw, or the
push hit a missing key): set `category` to "其他类" and push there; if even
that key is missing the TypeError escapes the catch block (Except.error). -/
def classifyOne (cf : FileRecord → Except String String)
    (st : ClassificationResult) (f : FileRecord) :
    Except String ClassificationResult :=
  let tryRes : Option ClassificationResult :=
    match cf f with
    | .error _ => none
    | .ok cat =>
      match pushCat st.categories cat { f with category := some cat } with
      | none => none
      | some cats =>
        some { st with categories := cats, totalSize := st.totalSize + f.size }
  match tryRes with
  | some st2 => .ok st2
  | none =>
    match pushCat st.categories "其他类" { f with category := some "其他类" } with
    | none => .error "TypeError"
    | some cats => .ok { st with categories := cats }

/-- `FileClassifier.classifyFiles` over an arbitrary per-record
classifier. -/
def classifyFilesE (cf : FileRecord → Except String String)
    (files : List FileRecord) : Except String ClassificationResult :=
  files.foldlM (classifyOne cf) (initResult files)

/-- The per-record classifier of the source (`this.classifyFile(file)`,
which as embedded is total, hence never `.error`). -/
def stdClassifier (f : FileRecord) : Except String String :=
  .ok (classifyFile f)

/-- `FileClassifier.classifyFiles` as called in the pipeline. -/
def classifyFiles (files : List FileRecord) : Except String ClassificationResult :=
  classifyFilesE stdClassifier files

/-! ### FileClassifier statistics -/

/-- `FileClassifier.getAllFiles`: flatten the category lists in category
(object-key insertion) order. -/
def getAllFiles (res : ClassificationResult) : List FileRecord :=
  res.categories.foldl (fun acc kv => acc ++ kv.2) []

/-- `hashGroups[file.hash].push(file)` with object-key insertion order:
append to an existing group, or append a fresh singleton group at the end. -/
def addToGroups :
    List (String × List FileRecord) → String → FileRecord →
    List (String × List FileRecord)
  | [], h, f => [(h, [f])]
  | (k, fs) :: rest, h, f =>
    if k = h then (k, fs ++ [f]) :: rest else (k, fs) :: addToGroups rest h f

/-- One step of the grouping loop of `findDuplicateFiles`: only files with
a truthy (`present and nonempty`) hash participate. -/
def hashGroupsStep (gs : List (String × List FileRecord)) (f : FileRecord) :
    List (String × List FileRecord) :=
  match f.hash with
  | some h => if h = "" then gs else addToGroups gs h f
  | none => gs

/-- The grouping loop of `findDuplicateFiles`. -/
def hashGroups (files : List FileRecord) : List (String × List FileRecord) :=
  files.foldl hashGroupsStep []

/-- `FileClassifier.findDuplicateFiles`: groups with more than one member,
first 10. -/
def findDuplicateFiles (res : ClassificationResult) : List (List FileRecord) :=
  (((hashGroups (getAllFiles res)).map (fun g => g.2)).filter
    (fun g => 1 < g.length)).take 10

/-- `FileClassifier.findLargestFiles`: stable sort by size descending
(comparator `(b.size||0) - (a.size||0)`), first 10. -/
def findLargestFiles (res : ClassificationResult) : List FileRecord :=
  ((getAllFiles res).mergeSort (fun a b => decide (b.size ≤ a.size))).take 10

/-- `FileClassifier.findOldestFiles`: stable sort by createdTime ascending,
first 10. -/
def findOldestFiles (res : ClassificationResult) : List FileRecord :=
  ((getAllFiles res).mergeSort (fun a b => decide (a.createdTime ≤ b.createdTime))).take 10

/-- `FileClassifier.findNewestFiles`: stable sort by createdTime descending,
first 10. -/
def findNewestFiles (res : ClassificationResult) : List FileRecord :=
  ((getAllFiles res).mergeSort (fun a b => decide (b.createdTime ≤ a.createdTime))).take 10

/-! ### Derived notions used by the statements -/

/-- The flattening of an association list's category sequences, in key
order (`getAllFiles res = catsFlat res.categories`, proved below). -/
def catsFlat (cats : List (String × List FileRecord)) : List FileRecord :=
  (cats.map (fun kv => kv.2)).flatten

/-- A record as it sits in the classification result: the input record with
its `category` field set by `classifyFile` (the JS code mutates the record
in place before pushing it). -/
def setCat (f : FileRecord) : FileRecord :=
  { f with category := some (classifyFile f) }

/-- The truthy hash of a record, if any: exactly the key under which
`findDuplicateFiles` groups it (`none` when the record is skipped). -/
def nehash (f : FileRecord) : Option String :=
  match f.hash with
  | some h => if h = "" then none else some h
  | none => none

/-- Read a key's list out of the categories association list (JS
`classificationResult.categories[key]`, `[]` when absent). -/
def lookupCat : List (String × List FileRecord) → String → List FileRecord
  | [], _ => []
  | (k, fs) :: rest, key => if k = key then fs else lookupCat rest key

/-! ### Concrete inputs used by witnesses and counterexamples -/

/-- `e.txt` of the spec's duplicate scenario: 4096 bytes. -/
def c1eInfo : BasicFileInfo :=
  ⟨"C:\\tmp\\e.txt", "e.txt", ".txt", 4096, 1699000000000, 1700000000000⟩

/-- `f.txt` of the spec's duplicate scenario: same size and modification
time as `e.txt`, different path. -/
def c1fInfo : BasicFileInfo :=
  ⟨"C:\\tmp\\f.txt", "f.txt", ".txt", 4096, 1699000000000, 1700000000000⟩

/-- `e.txt` enriched as the scanner enriches it (hash included). -/
def c1recE : FileRecord := getDetailedFileInfo c1eInfo

/-- `f.txt` enriched as the scanner enriches it (hash included). -/
def c1recF : FileRecord := getDetailedFileInfo c1fInfo

/-- A bare record with extension `.x` (for the classifier witness). -/
def c5wRec : FileRecord := ⟨"p", "n", ".x", 0, 0, 0, none, none, none⟩

/-- A two-category policy that (incorrectly) lists `.x` twice. -/
def c5wCats : List (String × List String) := [("A", [".x"]), ("B", [".x"])]

/-- A recent file (created and modified at time 100). -/
def c6wNew : BasicFileInfo := ⟨"R\\new.txt", "new.txt", ".txt", 10, 100, 100⟩

/-- An old file (created and modified at time 0). -/
def c6wOld : BasicFileInfo := ⟨"R\\old.txt", "old.txt", ".txt", 10, 0, 0⟩

/-- A nested recent file. -/
def c6wInner : BasicFileInfo := ⟨"R\\sub\\inner.md", "inner.md", ".md", 3, 50, 20⟩

/-- A small directory listing: two files and a subdirectory. -/
def c6wTree : List FSEntry :=
  [.file c6wNew, .file c6wOld, .dir "R\\sub" [.file c6wInner]]

/-- Record with hash key `h1`. -/
def c7wA : FileRecord := ⟨"p1", "a", ".txt", 1, 0, 0, some "h1", none, none⟩

/-- Record with hash key `h2`. -/
def c7wB : FileRecord := ⟨"p2", "b", ".txt", 2, 0, 0, some "h2", none, none⟩

/-- A later record colliding with `c7wA` on the hash key `h1`. -/
def c7wC : FileRecord := ⟨"p3", "c", ".txt", 3, 0, 0, some "h1", none, none⟩

/-- `x.jpg`: size 5, first in scan order. -/
def c8xInfo : BasicFileInfo := ⟨"C:\\a\\x.jpg", "x.jpg", ".jpg", 5, 100, 100⟩

/-- `y.pdf`: size 5 as well, second in scan order. -/
def c8yInfo : BasicFileInfo := ⟨"C:\\a\\y.pdf", "y.pdf", ".pdf", 5, 200, 200⟩

/-- `x.jpg` enriched. -/
def c8x : FileRecord := getDetailedFileInfo c8xInfo

/-- `y.pdf` enriched. -/
def c8y : FileRecord := getDetailedFileInfo c8yInfo

/-- The classification result of the scan-ordered input `[c8x, c8y]`. -/
def c8res : ClassificationResult :=
  (classifyFiles [c8x, c8y]).toOption.getD (initResult [])

/-- A per-record classifier that always throws. -/
def c9wThrow : FileRecord → Except String String := fun _ => .error "lookup failure"

/-- A record fed to the always-throwing classifier. -/
def c9wRec : FileRecord := ⟨"q", "m", ".pdf", 7, 0, 0, none, none, none⟩

/-- Two records with distinct hash keys (for the duplicate-statistic
witness). -/
def c10wFiles : List FileRecord :=
  [⟨"pa", "a", ".txt", 1, 0, 0, some "ka", none, none⟩,
   ⟨"pb", "b", ".txt", 2, 0, 0, some "kb", none, none⟩]

/-- Record `a.pdf` of the spec's classification scenario. -/
def c4wA : FileRecord := ⟨"C:\\w\\a.pdf", "a.pdf", ".pdf", 2048, 0, 0, none, none, none⟩

/-- Record `d.xyz` (unknown extension) of the spec's scenario. -/
def c4wD : FileRecord := ⟨"C:\\w\\d.xyz", "d.xyz", ".xyz", 1024, 0, 0, none, none, none⟩

deriving instance DecidableEq for Except

/-- The classification result of `[c4wA, c4wD]`. -/
def c4res : ClassificationResult :=
  (classifyFiles [c4wA, c4wD]).toOption.getD (initResult [])

/-- The classification result of `c10wFiles`. -/
def c10res : ClassificationResult :=
  (classifyFiles c10wFiles).toOption.getD (initResult [])

/-- The classification result of the scan-ordered input `[c8x, c8y]`
(already defined above as `c8res`); `c8xC`/`c8yC` are the two records as
they sit in that result, category fields set. -/
def c8xC : FileRecord := { c8x with category := some "图片类" }

/-- `c8y` with its category set. -/
def c8yC : FileRecord := { c8y with category := some "文档类" }

/-! ## Theorems -/

/-- Claim C2, counterexample: at size 1024 (the declared boundary between
"微小" and "小") two shipped buckets match under getSizeCategory's test
`size >= min && (max == -1 || size <= max)`, so "exactly one bucket matches
every size s ≥ 0" is false: upper bounds are inclusive, not exclusive. -/
theorem getSizeCategory_boundary_two_buckets :
    (matchingBuckets 1024).length = 2 ∧ (matchingBuckets 1024).length ≠ 1 := by
  exact ⟨rfl, by decide⟩

/-- Claim C2, amended: under the bucket test of getSizeCategory with the
shipped table, every size s ≥ 0 matches at least one bucket, and exactly
one bucket except at the four interior boundary sizes (1024, 1048576,
104857600, 1073741824) where exactly two adjacent buckets match, because
each bucket's upper bound is inclusive (`size <= max`) rather than
exclusive. -/
theorem getSizeCategory_match_count (s : Nat) :
    (matchingBuckets s).length =
      if s = 1024 ∨ s = 1048576 ∨ s = 104857600 ∨ s = 1073741824 then 2 else 1 := by
  simp only [matchingBuckets, sizeCategories, List.filter_cons, List.filter_nil]
  split_ifs <;>
    simp only [bucketMatches, decide_eq_true_eq, not_and, not_or, true_or, or_true,
      and_true, true_and, not_true, not_false_iff, List.length_cons, List.length_nil] at * <;>
    omega

/-- Claim C3, counterexample: a file of exactly 1048576 bytes is assigned
"小" (the bucket whose max is 1048576), not "中" (the bucket whose min is
1048576): getSizeCategory's upper bound test is `size <= max`, and the
first matching bucket in declared order wins. -/
theorem getSizeCategory_boundary_not_mid :
    getSizeCategory 1048576 = "小" ∧ getSizeCategory 1048576 ≠ "中" := by
  exact ⟨rfl, by decide⟩

/-- Claim C3, amended: a file of exactly 1048576 bytes is assigned the
bucket whose max equals 1048576 ("小"), because bucket upper bounds are
inclusive and the first matching bucket in declared order wins; the sizes
right around the boundary behave accordingly. -/
theorem getSizeCategory_boundary_assignment :
    getSizeCategory 1048576 = "小" ∧ getSizeCategory 1048575 = "小" ∧
    getSizeCategory 1048577 = "中" := by
  exact ⟨rfl, rfl, rfl⟩

set_option maxRecDepth 100000 in
/-- Claim C1: evaluation of the code at the spec's own duplicate scenario.
`e.txt` and `f.txt` have identical size (4096) and identical modification
time but different paths, yet the duplicateFiles statistic of their
classification is empty — not one group holding both — because
findDuplicateFiles groups by calculateFileHash's key, which includes the
path, so the two records' hashes differ. -/
theorem findDuplicateFiles_misses_same_size_mtime :
    ((classifyFiles [c1recE, c1recF]).toOption.map findDuplicateFiles) = some [] ∧
    c1recE.size = c1recF.size ∧
    c1recE.modifiedTime = c1recF.modifiedTime ∧
    c1recE.path ≠ c1recF.path ∧
    c1recE.hash ≠ c1recF.hash := by
  refine ⟨by decide, rfl, rfl, by decide, by decide⟩

/-- Helper: the category loop returns the fallback when no category's
extension list contains the extension. -/
theorem findCategory_not_mem (cats : List (String × List String)) (e : String)
    (h : ∀ c ∈ cats, e ∉ c.2) : findCategory cats e = "其他类" := by
  induction cats with
  | nil => rfl
  | cons c rest ih =>
    obtain ⟨name, exts⟩ := c
    have h1 : e ∉ exts := by
      have := h (name, exts) (List.mem_cons_self _ _)
      simpa using this
    simp only [findCategory, if_neg h1]
    exact ih fun c hc => h c (List.mem_cons_of_mem _ hc)

/-- Helper: the category loop returns the first declared category whose
extension list contains the extension. -/
theorem findCategory_first (l₁ : List (String × List String)) (c : String × List String)
    (l₂ : List (String × List String)) (e : String)
    (hmem : e ∈ c.2) (hfirst : ∀ c2 ∈ l₁, e ∉ c2.2) :
    findCategory (l₁ ++ c :: l₂) e = c.1 := by
  induction l₁ with
  | nil =>
    obtain ⟨name, exts⟩ := c
    simp only [List.nil_append, findCategory, if_pos hmem]
  | cons d rest ih =>
    obtain ⟨dn, de⟩ := d
    have h1 : e ∉ de := by
      have := hfirst (dn, de) (List.mem_cons_self _ _)
      simpa using this
    simp only [List.cons_append, findCategory, if_neg h1]
    exact ih fun c2 hc => hfirst c2 (List.mem_cons_of_mem _ hc)

/-- Claim C5: for every record and category table, classifyFile returns
"其他类" when the extension is empty/absent; returns "其他类" when no
category's extension set contains the lower-cased extension; and otherwise
returns the first category, in declared order, whose extension set contains
the lower-cased extension — so when an extension is listed in two
categories, the first declared one wins. -/
theorem classifyFile_order :
    (∀ (cats : List (String × List String)) (f : FileRecord),
      f.extension = "" → classifyFileWith cats f = "其他类") ∧
    (∀ (cats : List (String × List String)) (f : FileRecord),
      (∀ c ∈ cats, toLowerStr f.extension ∉ c.2) → classifyFileWith cats f = "其他类") ∧
    (∀ (l₁ : List (String × List String)) (c : String × List String)
      (l₂ : List (String × List String)) (f : FileRecord),
      f.extension ≠ "" → toLowerStr f.extension ∈ c.2 →
      (∀ c2 ∈ l₁, toLowerStr f.extension ∉ c2.2) →
      classifyFileWith (l₁ ++ c :: l₂) f = c.1) := by
  refine ⟨?_, ?_, ?_⟩
  · intro cats f h
    simp [classifyFileWith, h]
  · intro cats f h
    by_cases hext : f.extension = ""
    · simp [classifyFileWith, hext]
    · simp only [classifyFileWith, if_neg hext]
      exact findCategory_not_mem cats _ h
  · intro l₁ c l₂ f hext hmem hfirst
    simp only [classifyFileWith, if_neg hext]
    exact findCategory_first l₁ c l₂ _ hmem hfirst

/-- Witness for C5: on a two-category table that lists `.x` twice, the
record with extension `.x` goes to the first declared category "A". -/
theorem classifyFile_order_witness :
    c5wRec.extension ≠ "" ∧ toLowerStr c5wRec.extension ∈ [".x"] ∧
    classifyFileWith c5wCats c5wRec = "A" := by
  refine ⟨by decide, by decide, ?_⟩
  have h := classifyFile_order.2.2 [] ("A", [".x"]) [("B", [".x"])] c5wRec
    (by decide) (by decide) (by intro c2 hc; simp at hc)
  simpa [c5wCats] using h

/-- Helper: the fold of `removeDuplicates` agrees with the structural
first-occurrence filter, for any accumulator and any seen-key set with the
same members. -/
theorem removeDuplicates_go (fs : List FileRecord) :
    ∀ (acc : List FileRecord) (seen₁ seen₂ : List String),
      (∀ k, k ∈ seen₁ ↔ k ∈ seen₂) →
      (fs.foldl removeDupStep (acc, seen₁)).1 = acc ++ firstSeenSpec seen₂ fs := by
  induction fs with
  | nil => intro acc seen₁ seen₂ _; simp [firstSeenSpec]
  | cons f rest ih =>
    intro acc seen₁ seen₂ hiff
    by_cases hk : dedupKey f ∈ seen₁
    · have hk2 : dedupKey f ∈ seen₂ := (hiff _).mp hk
      simp only [List.foldl_cons, removeDupStep, if_pos hk, firstSeenSpec, if_pos hk2]
      exact ih acc seen₁ seen₂ hiff
    · have hk2 : dedupKey f ∉ seen₂ := fun h => hk ((hiff _).mpr h)
      simp only [List.foldl_cons, removeDupStep, if_neg hk, firstSeenSpec, if_neg hk2]
      rw [ih (acc ++ [f]) (seen₁ ++ [dedupKey f]) (dedupKey f :: seen₂) ?_]
      · simp
      · intro k
        simp only [List.mem_append, List.mem_singleton, List.mem_cons, hiff k]
        tauto

/-- Helper: the first-occurrence filter is a sublist of its input (kept
records keep their relative order). -/
theorem firstSeenSpec_sublist (seen : List String) (fs : List FileRecord) :
    (firstSeenSpec seen fs).Sublist fs := by
  induction fs generalizing seen with
  | nil => simp [firstSeenSpec]
  | cons f rest ih =>
    by_cases hk : dedupKey f ∈ seen
    · simp only [firstSeenSpec, if_pos hk]
      exact (ih seen).cons f
    · simp only [firstSeenSpec, if_neg hk]
      exact (ih _).cons₂ f

/-- Helper: nothing the first-occurrence filter keeps has a key that was
already seen. -/
theorem firstSeenSpec_not_seen (seen : List String) (fs : List FileRecord) :
    ∀ g ∈ firstSeenSpec seen fs, dedupKey g ∉ seen := by
  induction fs generalizing seen with
  | nil => simp [firstSeenSpec]
  | cons f rest ih =>
    intro g hg
    by_cases hk : dedupKey f ∈ seen
    · rw [firstSeenSpec, if_pos hk] at hg
      exact ih seen g hg
    · rw [firstSeenSpec, if_neg hk] at hg
      rcases List.mem_cons.mp hg with hg | hg
      · exact hg ▸ hk
      · have := ih _ g hg
        intro hmem
        exact this (List.mem_cons_of_mem _ hmem)

/-- Helper: kept records have pairwise distinct keys. -/
theorem firstSeenSpec_pairwise (seen : List String) (fs : List FileRecord) :
    (firstSeenSpec seen fs).Pairwise (fun a b => dedupKey a ≠ dedupKey b) := by
  induction fs generalizing seen with
  | nil => simp [firstSeenSpec]
  | cons f rest ih =>
    by_cases hk : dedupKey f ∈ seen
    · simpa [firstSeenSpec, if_pos hk] using ih seen
    · rw [firstSeenSpec, if_neg hk]
      refine List.Pairwise.cons ?_ (ih _)
      intro g hg
      have := firstSeenSpec_not_seen _ _ g hg
      intro heq
      exact this (heq ▸ List.mem_cons_self _ _)

/-- Helper: every input record's key is either already seen or represented
by some kept record. -/
theorem firstSeenSpec_covers (seen : List String) (fs : List FileRecord) :
    ∀ f ∈ fs, dedupKey f ∈ seen ∨
      ∃ g, g ∈ firstSeenSpec seen fs ∧ dedupKey g = dedupKey f := by
  induction fs generalizing seen with
  | nil => simp
  | cons x rest ih =>
    intro f hf
    by_cases hk : dedupKey x ∈ seen
    · rw [firstSeenSpec, if_pos hk]
      rcases List.mem_cons.mp hf with hf | hf
      · exact Or.inl (hf ▸ hk)
      · exact ih seen f hf
    · rw [firstSeenSpec, if_neg hk]
      rcases List.mem_cons.mp hf with hf | hf
      · exact Or.inr ⟨x, List.mem_cons_self _ _, by rw [hf]⟩
      · rcases ih (dedupKey x :: seen) f hf with hs | ⟨g, hg, he⟩
        · rcases List.mem_cons.mp hs with hs | hs
          · exact Or.inr ⟨x, List.mem_cons_self _ _, hs.symm⟩
          · exact Or.inl hs
        · exact Or.inr ⟨g, List.mem_cons_of_mem _ hg, he⟩

/-- Claim C7: removeDuplicates keeps, per fingerprint key, exactly the
first-seen record in input order (it equals the structural first-occurrence
filter), preserves the relative input order of kept records (sublist), has
pairwise distinct keys in its output, and loses no key: every input record
has a kept representative with the same key. -/
theorem removeDuplicates_first_seen (files : List FileRecord) :
    removeDuplicates files = firstSeenSpec [] files ∧
    (removeDuplicates files).Sublist files ∧
    (removeDuplicates files).Pairwise (fun a b => dedupKey a ≠ dedupKey b) ∧
    ∀ f ∈ files, ∃ g, g ∈ removeDuplicates files ∧ dedupKey g = dedupKey f := by
  have heq : removeDuplicates files = firstSeenSpec [] files := by
    have := removeDuplicates_go files [] [] [] (fun k => Iff.rfl)
    simpa [removeDuplicates] using this
  refine ⟨heq, ?_, ?_, ?_⟩
  · rw [heq]; exact firstSeenSpec_sublist [] files
  · rw [heq]; exact firstSeenSpec_pairwise [] files
  · intro f hf
    rcases firstSeenSpec_covers [] files f hf with h | ⟨g, hg, he⟩
    · simp at h
    · exact ⟨g, heq ▸ hg, he⟩

/-- Witness for C7: on `[c7wA, c7wB, c7wC]` where `c7wC` repeats `c7wA`'s
key, the output keeps the first-seen records in order and the dropped
record's key is still represented. -/
theorem removeDuplicates_first_seen_witness :
    removeDuplicates [c7wA, c7wB, c7wC] = [c7wA, c7wB] ∧
    ∃ g, g ∈ removeDuplicates [c7wA, c7wB, c7wC] ∧ dedupKey g = dedupKey c7wC := by
  refine ⟨by decide, ?_⟩
  exact (removeDuplicates_first_seen [c7wA, c7wB, c7wC]).2.2.2 c7wC (by decide)

/-- Helper: the foldl-append of getAllFiles equals appending the flattened
category lists. -/
theorem getAllFiles_foldl (cats : List (String × List FileRecord)) :
    ∀ acc : List FileRecord,
      cats.foldl (fun acc kv => acc ++ kv.2) acc = acc ++ catsFlat cats := by
  induction cats with
  | nil => intro acc; simp [catsFlat]
  | cons kv rest ih =>
    intro acc
    simp only [List.foldl_cons, ih, catsFlat, List.map_cons, List.flatten_cons,
      List.append_assoc]

/-- Helper: getAllFiles is the flattening of the category lists in key
order. -/
theorem getAllFiles_eq (res : ClassificationResult) :
    getAllFiles res = catsFlat res.categories := by
  simpa [getAllFiles] using getAllFiles_foldl res.categories []

/-- Helper: a successful push preserves the key sequence. -/
theorem pushCat_keys (cats : List (String × List FileRecord)) (cat : String)
    (f : FileRecord) (cats2 : List (String × List FileRecord))
    (h : pushCat cats cat f = some cats2) :
    cats2.map (fun kv => kv.1) = cats.map (fun kv => kv.1) := by
  induction cats generalizing cats2 with
  | nil => simp [pushCat] at h
  | cons kv rest ih =>
    obtain ⟨k, fs⟩ := kv
    by_cases hk : k = cat
    · rw [pushCat, if_pos hk] at h
      cases h
      simp
    · rw [pushCat, if_neg hk] at h
      cases hrec : pushCat rest cat f with
      | none => rw [hrec] at h; cases h
      | some rest2 =>
        rw [hrec] at h
        cases h
        simp [ih rest2 hrec]

/-- Helper: a successful push permutes the flattened records by adding the
pushed record. -/
theorem pushCat_flat_perm (cats : List (String × List FileRecord)) (cat : String)
    (f : FileRecord) (cats2 : List (String × List FileRecord))
    (h : pushCat cats cat f = some cats2) :
    (catsFlat cats2).Perm (f :: catsFlat cats) := by
  induction cats generalizing cats2 with
  | nil => simp [pushCat] at h
  | cons kv rest ih =>
    obtain ⟨k, fs⟩ := kv
    by_cases hk : k = cat
    · rw [pushCat, if_pos hk] at h
      cases h
      simp only [catsFlat, List.map_cons, List.flatten_cons, List.append_assoc,
        List.singleton_append]
      exact List.perm_middle
    · rw [pushCat, if_neg hk] at h
      cases hrec : pushCat rest cat f with
      | none => rw [hrec] at h; cases h
      | some rest2 =>
        rw [hrec] at h
        cases h
        simp only [catsFlat, List.map_cons, List.flatten_cons]
        have hperm := ih rest2 hrec
        simp only [catsFlat] at hperm
        exact (hperm.append_left fs).trans List.perm_middle

/-- Helper: pushing onto a present key succeeds. -/
theorem pushCat_isSome (cats : List (String × List FileRecord)) (cat : String)
    (f : FileRecord) (h : cat ∈ cats.map (fun kv => kv.1)) :
    ∃ cats2, pushCat cats cat f = some cats2 := by
  induction cats with
  | nil => simp at h
  | cons kv rest ih =>
    obtain ⟨k, fs⟩ := kv
    by_cases hk : k = cat
    · exact ⟨_, by rw [pushCat, if_pos hk]⟩
    · simp only [List.map_cons, List.mem_cons] at h
      rcases h with h | h
      · exact absurd h.symm hk
      · obtain ⟨rest2, hrest⟩ := ih h
        exact ⟨_, by rw [pushCat, if_neg hk, hrest]⟩

/-- Helper: a successful push appends to the pushed key's list and leaves
every other key's list unchanged. -/
theorem pushCat_lookup (cats : List (String × List FileRecord)) (cat : String)
    (f : FileRecord) (cats2 : List (String × List FileRecord))
    (h : pushCat cats cat f = some cats2) (k : String) :
    lookupCat cats2 k =
      (if k = cat then lookupCat cats k ++ [f] else lookupCat cats k) := by
  induction cats generalizing cats2 with
  | nil => simp [pushCat] at h
  | cons kv rest ih =>
    obtain ⟨k0, fs⟩ := kv
    by_cases hk : k0 = cat
    · rw [pushCat, if_pos hk] at h
      cases h
      by_cases h0 : k0 = k
      · have hkc : k = cat := h0 ▸ hk
        simp [lookupCat, if_pos h0, if_pos hkc]
      · have hkc : ¬ k = cat := fun hh => h0 (hk.trans hh.symm)
        simp [lookupCat, if_neg h0, if_neg hkc]
    · rw [pushCat, if_neg hk] at h
      cases hrec : pushCat rest cat f with
      | none => rw [hrec] at h; cases h
      | some rest2 =>
        rw [hrec] at h
        cases h
        by_cases h0 : k0 = k
        · have hkc : ¬ k = cat := fun hh => hk (h0.trans hh)
          simp [lookupCat, if_pos h0, if_neg hkc]
        · simp only [lookupCat, if_neg h0]
          exact ih rest2 hrec

/-- Helper: the category loop returns the fallback or one of the declared
category names. -/
theorem findCategory_range (cats : List (String × List String)) (e : String) :
    findCategory cats e = "其他类" ∨ findCategory cats e ∈ cats.map (fun c => c.1) := by
  induction cats with
  | nil => exact Or.inl rfl
  | cons c rest ih =>
    obtain ⟨name, exts⟩ := c
    by_cases hm : e ∈ exts
    · right
      simp [findCategory, if_pos hm]
    · rw [findCategory, if_neg hm]
      rcases ih with h | h
      · exact Or.inl h
      · exact Or.inr (List.mem_cons_of_mem _ h)

/-- Helper: classifyFile always returns a key of the shipped table (which
declares "其他类"). -/
theorem classifyFile_mem_keys (f : FileRecord) :
    classifyFile f ∈ fileCategories.map (fun c => c.1) := by
  rw [classifyFile, classifyFileWith]
  by_cases hext : f.extension = ""
  · rw [if_pos hext]
    decide
  · rw [if_neg hext]
    rcases findCategory_range fileCategories (toLowerStr f.extension) with h | h
    · rw [h]; decide
    · exact h

/-- Helper: the initialized result carries exactly the configured category
keys, in order. -/
theorem initResult_keys (files : List FileRecord) :
    (initResult files).categories.map (fun kv => kv.1) =
      fileCategories.map (fun c => c.1) := by
  rw [initResult, List.map_map]
  rfl

/-- Helper: with the source's classifier, the per-record step never takes
the catch path: it pushes the record (with category set) onto the
classified key. -/
theorem classifyOne_std (st : ClassificationResult) (f : FileRecord)
    (hk : st.categories.map (fun kv => kv.1) = fileCategories.map (fun c => c.1)) :
    ∃ cats2, pushCat st.categories (classifyFile f) (setCat f) = some cats2 ∧
      classifyOne stdClassifier st f =
        Except.ok { st with categories := cats2, totalSize := st.totalSize + f.size } := by
  obtain ⟨cats2, hp⟩ := pushCat_isSome st.categories (classifyFile f) (setCat f)
    (by rw [hk]; exact classifyFile_mem_keys f)
  refine ⟨cats2, hp, ?_⟩
  simp only [classifyOne, stdClassifier]
  rw [show ({ f with category := some (classifyFile f) } : FileRecord) = setCat f from rfl, hp]

/-- Helper: the classification fold with the source's classifier succeeds,
preserves keys and totalFiles, and appends exactly the category-tagged
input records to the flattened contents. -/
theorem classifyFold_std (files : List FileRecord) :
    ∀ st : ClassificationResult,
      st.categories.map (fun kv => kv.1) = fileCategories.map (fun c => c.1) →
      ∃ st2, List.foldlM (classifyOne stdClassifier) st files = Except.ok st2 ∧
        st2.categories.map (fun kv => kv.1) = fileCategories.map (fun c => c.1) ∧
        st2.totalFiles = st.totalFiles ∧
        (catsFlat st2.categories).Perm (catsFlat st.categories ++ files.map setCat) := by
  induction files with
  | nil =>
    intro st hk
    exact ⟨st, rfl, hk, rfl, by simp⟩
  | cons f rest ih =>
    intro st hk
    obtain ⟨cats2, hp, hone⟩ := classifyOne_std st f hk
    have hk2 : cats2.map (fun kv => kv.1) = fileCategories.map (fun c => c.1) :=
      (pushCat_keys _ _ _ _ hp).trans hk
    obtain ⟨st2, hfold, hkeys, htot, hperm⟩ :=
      ih { st with categories := cats2, totalSize := st.totalSize + f.size } hk2
    refine ⟨st2, ?_, hkeys, htot, ?_⟩
    · rw [List.foldlM_cons, hone]
      simpa using hfold
    · have hflat := pushCat_flat_perm st.categories (classifyFile f) (setCat f) cats2 hp
      exact (hperm.trans (hflat.append_right (rest.map setCat))).trans
        List.perm_middle.symm

/-- Helper: the initialized result holds no records. -/
theorem initResult_flat (files : List FileRecord) :
    catsFlat (initResult files).categories = [] := rfl

/-- Claim C4: for every input list, classifyFiles succeeds with
totalFiles equal to the number of input records, the category counts
summing to totalFiles, and the records spread over the categories being
exactly the input records (each tagged with its category) — so each input
record appears in exactly one category's sequence. -/
theorem classifyFiles_partition (files : List FileRecord) (res : ClassificationResult)
    (h : classifyFiles files = Except.ok res) :
    res.totalFiles = files.length ∧
    (res.categories.map (fun kv => kv.2.length)).sum = files.length ∧
    (getAllFiles res).Perm (files.map setCat) := by
  obtain ⟨st2, hfold, hkeys, htot, hperm⟩ :=
    classifyFold_std files (initResult files) (initResult_keys files)
  rw [classifyFiles, classifyFilesE, hfold] at h
  cases h
  have hperm2 : (getAllFiles res).Perm (files.map setCat) := by
    rw [getAllFiles_eq]
    simpa [initResult_flat] using hperm
  refine ⟨htot, ?_, hperm2⟩
  have hlen : (getAllFiles res).length = (files.map setCat).length := hperm2.length_eq
  rw [getAllFiles_eq, catsFlat, List.length_flatten, List.map_map] at hlen
  simpa using hlen

/-- Witness for C4 at the spec's scenario records `a.pdf` and `d.xyz`. -/
theorem classifyFiles_partition_witness :
    classifyFiles [c4wA, c4wD] = Except.ok c4res ∧
    c4res.totalFiles = [c4wA, c4wD].length ∧
    (c4res.categories.map (fun kv => kv.2.length)).sum = [c4wA, c4wD].length ∧
    (getAllFiles c4res).Perm ([c4wA, c4wD].map setCat) := by
  have h : classifyFiles [c4wA, c4wD] = Except.ok c4res := by decide
  obtain ⟨h1, h2, h3⟩ := classifyFiles_partition [c4wA, c4wD] c4res h
  exact ⟨h, h1, h2, h3⟩

/-- Helper: for an arbitrary (possibly failing) per-record classifier, the
per-record try/catch step always returns ok (given the fallback key
exists), preserves keys and totalFiles, never removes records from the
fallback list, and lands a failing record, tagged "其他类", in the
fallback list. -/
theorem classifyOne_any (cf : FileRecord → Except String String)
    (st : ClassificationResult) (f : FileRecord)
    (hk : "其他类" ∈ st.categories.map (fun kv => kv.1)) :
    ∃ st2, classifyOne cf st f = Except.ok st2 ∧
      st2.categories.map (fun kv => kv.1) = st.categories.map (fun kv => kv.1) ∧
      st2.totalFiles = st.totalFiles ∧
      (∀ g, g ∈ lookupCat st.categories "其他类" →
        g ∈ lookupCat st2.categories "其他类") ∧
      ((∃ e, cf f = Except.error e) →
        { f with category := some "其他类" } ∈ lookupCat st2.categories "其他类") := by
  cases hcf : cf f with
  | error e =>
    obtain ⟨cats2, hp⟩ :=
      pushCat_isSome st.categories "其他类" { f with category := some "其他类" } hk
    refine ⟨{ st with categories := cats2 }, ?_, ?_, rfl, ?_, ?_⟩
    · simp only [classifyOne, hcf, hp]
    · exact pushCat_keys _ _ _ _ hp
    · intro g hg
      rw [pushCat_lookup _ _ _ _ hp, if_pos rfl]
      exact List.mem_append_left _ hg
    · intro _
      rw [pushCat_lookup _ _ _ _ hp, if_pos rfl]
      exact List.mem_append_right _ (List.mem_singleton.mpr rfl)
  | ok cat =>
    cases hp : pushCat st.categories cat { f with category := some cat } with
    | some cats2 =>
      refine ⟨{ st with categories := cats2, totalSize := st.totalSize + f.size },
        ?_, ?_, rfl, ?_, ?_⟩
      · simp only [classifyOne, hcf, hp]
      · exact pushCat_keys _ _ _ _ hp
      · intro g hg
        rw [pushCat_lookup _ _ _ _ hp]
        split_ifs with hc
        · exact List.mem_append_left _ hg
        · exact hg
      · rintro ⟨e, he⟩
        exact Except.noConfusion he
    | none =>
      obtain ⟨cats2, hp2⟩ :=
        pushCat_isSome st.categories "其他类" { f with category := some "其他类" } hk
      refine ⟨{ st with categories := cats2 }, ?_, ?_, rfl, ?_, ?_⟩
      · simp only [classifyOne, hcf, hp, hp2]
      · exact pushCat_keys _ _ _ _ hp2
      · intro g hg
        rw [pushCat_lookup _ _ _ _ hp2, if_pos rfl]
        exact List.mem_append_left _ hg
      · intro _
        rw [pushCat_lookup _ _ _ _ hp2, if_pos rfl]
        exact List.mem_append_right _ (List.mem_singleton.mpr rfl)

/-- Helper: the classification fold with an arbitrary per-record
classifier always returns ok (given the fallback key exists), and every
record on which the classifier threw ends up, tagged "其他类", in the
fallback category's list. -/
theorem classifyFold_any (cf : FileRecord → Except String String)
    (files : List FileRecord) :
    ∀ st : ClassificationResult,
      "其他类" ∈ st.categories.map (fun kv => kv.1) →
      ∃ st2, List.foldlM (classifyOne cf) st files = Except.ok st2 ∧
        "其他类" ∈ st2.categories.map (fun kv => kv.1) ∧
        (∀ g, g ∈ lookupCat st.categories "其他类" →
          g ∈ lookupCat st2.categories "其他类") ∧
        (∀ f ∈ files, (∃ e, cf f = Except.error e) →
          { f with category := some "其他类" } ∈ lookupCat st2.categories "其他类") := by
  induction files with
  | nil =>
    intro st hk
    exact ⟨st, rfl, hk, fun g hg => hg, by simp⟩
  | cons f rest ih =>
    intro st hk
    obtain ⟨st1, hone, hkeys1, _, hmono1, herr1⟩ := classifyOne_any cf st f hk
    obtain ⟨st2, hfold, hkeys2, hmono2, herr2⟩ := ih st1 (hkeys1 ▸ hk)
    refine ⟨st2, ?_, hkeys2, fun g hg => hmono2 g (hmono1 g hg), ?_⟩
    · rw [List.foldlM_cons, hone]
      simpa using hfold
    · intro g hg he
      rcases List.mem_cons.mp hg with hg | hg
      · exact hmono2 _ (hg ▸ herr1 (hg ▸ he))
      · exact herr2 g hg he

/-- Claim C9: classification never raises: for every per-record classifier
behavior and every input list, classifyFiles returns ok, and every record
whose classification threw is assigned to the "其他类" category instead of
the error propagating out. -/
theorem classifyFiles_never_raises (cf : FileRecord → Except String String)
    (files : List FileRecord) :
    ∃ res, classifyFilesE cf files = Except.ok res ∧
      ∀ f ∈ files, (∃ e, cf f = Except.error e) →
        { f with category := some "其他类" } ∈ lookupCat res.categories "其他类" := by
  obtain ⟨st2, hfold, _, _, herr⟩ := classifyFold_any cf files (initResult files)
    (by rw [initResult_keys]; decide)
  exact ⟨st2, hfold, herr⟩

/-- Witness for C9 with a classifier that always throws. -/
theorem classifyFiles_never_raises_witness :
    ∃ res, classifyFilesE c9wThrow [c9wRec] = Except.ok res ∧
      { c9wRec with category := some "其他类" } ∈ lookupCat res.categories "其他类" := by
  obtain ⟨res, hok, herr⟩ := classifyFiles_never_raises c9wThrow [c9wRec]
  exact ⟨res, hok, herr c9wRec (List.mem_singleton.mpr rfl) ⟨"lookup failure", rfl⟩⟩

/-- Helper: the grouping step acts through the truthy hash. -/
theorem hashGroupsStep_eq (gs : List (String × List FileRecord)) (f : FileRecord) :
    hashGroupsStep gs f =
      (match nehash f with
       | some h => addToGroups gs h f
       | none => gs) := by
  rw [hashGroupsStep, nehash]
  cases f.hash with
  | none => rfl
  | some h =>
    by_cases hh : h = ""
    · simp [hh]
    · simp [hh]

/-- Helper: adding under a key no existing group carries appends a fresh
singleton group. -/
theorem addToGroups_fresh (gs : List (String × List FileRecord)) (h : String)
    (f : FileRecord) (hfresh : ∀ kg ∈ gs, kg.1 ≠ h) :
    addToGroups gs h f = gs ++ [(h, [f])] := by
  induction gs with
  | nil => rfl
  | cons kg rest ih =>
    obtain ⟨k, fs⟩ := kg
    have hne : k ≠ h := by
      have := hfresh (k, fs) (List.mem_cons_self _ _)
      simpa using this
    rw [addToGroups, if_neg hne, List.cons_append,
      ih fun kg hm => hfresh kg (List.mem_cons_of_mem _ hm)]

/-- Helper: when the truthy hashes of the remaining records are pairwise
distinct and disjoint from the accumulated group keys, every resulting
group stays a singleton. -/
theorem hashGroups_small_aux (l : List FileRecord) :
    ∀ gs : List (String × List FileRecord),
      (l.filterMap nehash).Pairwise (fun a b => a ≠ b) →
      (∀ kg ∈ gs, kg.2.length ≤ 1) →
      (∀ kg ∈ gs, ∀ h ∈ l.filterMap nehash, kg.1 ≠ h) →
      ∀ kg ∈ l.foldl hashGroupsStep gs, kg.2.length ≤ 1 := by
  induction l with
  | nil =>
    intro gs _ hsmall _ kg hm
    exact hsmall kg hm
  | cons f rest ih =>
    intro gs hpw hsmall hfresh kg hm
    rw [List.foldl_cons, hashGroupsStep_eq] at hm
    cases hn : nehash f with
    | none =>
      simp only [hn] at hm
      have hfm : (f :: rest).filterMap nehash = rest.filterMap nehash := by
        rw [List.filterMap_cons, hn]
      rw [hfm] at hpw hfresh
      exact ih gs hpw hsmall hfresh kg hm
    | some h =>
      simp only [hn] at hm
      have hfm : (f :: rest).filterMap nehash = h :: rest.filterMap nehash := by
        rw [List.filterMap_cons, hn]
      rw [hfm] at hpw hfresh
      have hpw2 := List.pairwise_cons.mp hpw
      have hgs : addToGroups gs h f = gs ++ [(h, [f])] :=
        addToGroups_fresh gs h f fun kg2 hm2 =>
          hfresh kg2 hm2 h (List.mem_cons_self _ _)
      rw [hgs] at hm
      refine ih (gs ++ [(h, [f])]) hpw2.2 ?_ ?_ kg hm
      · intro kg2 hm2
        rcases List.mem_append.mp hm2 with hm2 | hm2
        · exact hsmall kg2 hm2
        · rw [List.mem_singleton.mp hm2]
          simp
      · intro kg2 hm2 h2 hh2
        rcases List.mem_append.mp hm2 with hm2 | hm2
        · exact hfresh kg2 hm2 h2 (List.mem_cons_of_mem _ hh2)
        · rw [List.mem_singleton.mp hm2]
          exact hpw2.1 h2 hh2

/-- Helper: with pairwise distinct truthy hashes among the classified
records, the duplicate statistic is empty. -/
theorem findDuplicateFiles_of_distinct (res : ClassificationResult)
    (hpw : ((getAllFiles res).filterMap nehash).Pairwise (fun a b => a ≠ b)) :
    findDuplicateFiles res = [] := by
  have hsmall : ∀ kg ∈ hashGroups (getAllFiles res), kg.2.length ≤ 1 :=
    hashGroups_small_aux (getAllFiles res) [] hpw (by simp) (by simp)
  have hfil :
      ((hashGroups (getAllFiles res)).map (fun g => g.2)).filter
        (fun g => 1 < g.length) = [] := by
    rw [List.filter_eq_nil_iff]
    intro g hg
    obtain ⟨kg, hkg, rfl⟩ := List.mem_map.mp hg
    have := hsmall kg hkg
    simp only [decide_eq_true_eq, not_lt]
    omega
  rw [findDuplicateFiles, hfil]
  rfl

/-- Helper: a record's truthy hash is exactly its deduplication key. -/
theorem nehash_dedupKey (f : FileRecord) (h : String) (hn : nehash f = some h) :
    dedupKey f = h := by
  rw [nehash] at hn
  rw [dedupKey]
  cases hf : f.hash with
  | none =>
    simp only [hf] at hn
    exact Option.noConfusion hn
  | some h0 =>
    simp only [hf] at hn ⊢
    by_cases h0e : h0 = ""
    · simp [h0e] at hn
    · rw [if_neg h0e] at hn ⊢
      injection hn

/-- Helper: pairwise distinct dedup keys give pairwise distinct truthy
hashes. -/
theorem pairwise_nehash_of_dedupKey (l : List FileRecord)
    (hpw : l.Pairwise (fun a b => dedupKey a ≠ dedupKey b)) :
    (l.filterMap nehash).Pairwise (fun a b => a ≠ b) := by
  refine List.Pairwise.filterMap nehash ?_ hpw
  intro a b hne x hx y hy heq
  exact hne ((nehash_dedupKey a x hx).trans (heq.trans (nehash_dedupKey b y hy).symm))

/-- Helper: tagging categories does not change the truthy hashes. -/
theorem nehash_filterMap_setCat (l : List FileRecord) :
    (l.map setCat).filterMap nehash = l.filterMap nehash := by
  rw [List.filterMap_map]
  rfl

/-- Claim C10: when all truthy fingerprint hashes of the input are
pairwise distinct, the duplicateFiles statistic of the classification is
empty; and in particular, for any input the pipeline
removeDuplicates → classifyFiles always yields an empty duplicateFiles
statistic, because deduplication keys and duplicate-grouping keys are the
same hash value. -/
theorem pipeline_no_duplicates :
    (∀ (files : List FileRecord) (res : ClassificationResult),
      (files.filterMap nehash).Pairwise (fun a b => a ≠ b) →
      classifyFiles files = Except.ok res → findDuplicateFiles res = []) ∧
    (∀ (files : List FileRecord) (res : ClassificationResult),
      classifyFiles (removeDuplicates files) = Except.ok res →
      findDuplicateFiles res = []) := by
  have part1 : ∀ (files : List FileRecord) (res : ClassificationResult),
      (files.filterMap nehash).Pairwise (fun a b => a ≠ b) →
      classifyFiles files = Except.ok res → findDuplicateFiles res = [] := by
    intro files res hpw h
    obtain ⟨st2, hfold, _, _, hperm⟩ :=
      classifyFold_std files (initResult files) (initResult_keys files)
    rw [classifyFiles, classifyFilesE, hfold] at h
    cases h
    have hperm2 : (getAllFiles res).Perm (files.map setCat) := by
      rw [getAllFiles_eq]
      simpa [initResult_flat] using hperm
    have hpw2 : ((getAllFiles res).filterMap nehash).Pairwise (fun a b => a ≠ b) := by
      have hp3 := hperm2.filterMap nehash
      rw [nehash_filterMap_setCat] at hp3
      exact (hp3.pairwise_iff fun h => Ne.symm h).mpr hpw
    exact findDuplicateFiles_of_distinct res hpw2
  refine ⟨part1, ?_⟩
  intro files res h
  refine part1 (removeDuplicates files) res ?_ h
  apply pairwise_nehash_of_dedupKey
  have heq : removeDuplicates files = firstSeenSpec [] files := by
    have := removeDuplicates_go files [] [] [] (fun k => Iff.rfl)
    simpa [removeDuplicates] using this
  rw [heq]
  exact firstSeenSpec_pairwise [] files

/-- Witness for C10 on two records with distinct hash keys. -/
theorem pipeline_no_duplicates_witness :
    classifyFiles c10wFiles = Except.ok c10res ∧
    (c10wFiles.filterMap nehash).Pairwise (fun a b => a ≠ b) ∧
    findDuplicateFiles c10res = [] := by
  have h : classifyFiles c10wFiles = Except.ok c10res := by decide
  have hpw : (c10wFiles.filterMap nehash).Pairwise (fun a b => a ≠ b) := by decide
  exact ⟨h, hpw, pipeline_no_duplicates.1 c10wFiles c10res hpw h⟩

/-- Helper: every record produced by the item loop satisfies the cutoff
disjunction (by mutual functional induction with scanDirectory). -/
theorem scanItems_cutoff (excl : String → Bool) (cutoff : Int) :
    ∀ (children : List FSEntry) (depth : Nat),
      ∀ r ∈ scanItems excl cutoff children depth,
        cutoff ≤ r.createdTime ∨ cutoff ≤ r.modifiedTime := by
  refine scanItems.induct excl cutoff
    (fun p cs d => ∀ r ∈ scanDirectory excl cutoff p cs d,
      cutoff ≤ r.createdTime ∨ cutoff ≤ r.modifiedTime)
    (fun cs d => ∀ r ∈ scanItems excl cutoff cs d,
      cutoff ≤ r.createdTime ∨ cutoff ≤ r.modifiedTime)
    ?_ ?_ ?_ ?_ ?_
  · intro p cs d hex r hr
    rw [scanDirectory, if_pos hex] at hr
    cases hr
  · intro p cs d hex hrec r hr
    rw [scanDirectory, if_neg hex] at hr
    exact hrec r hr
  · intro d r hr
    rw [scanItems] at hr
    cases hr
  · intro b rest d hrec r hr
    rw [scanItems] at hr
    rcases List.mem_append.mp hr with hr | hr
    · by_cases hrecent : isRecentFile b cutoff
      · rw [if_pos hrecent] at hr
        rw [List.mem_singleton.mp hr]
        rw [isRecentFile] at hrecent
        rcases Bool.or_eq_true_iff.mp hrecent with hc | hc
        · exact Or.inl (of_decide_eq_true hc)
        · exact Or.inr (of_decide_eq_true hc)
      · rw [if_neg hrecent] at hr
        cases hr
    · exact hrec r hr
  · intro q cs rest d hdir hrec r hr
    rw [scanItems] at hr
    rcases List.mem_append.mp hr with hr | hr
    · by_cases hd : d < 10
      · rw [if_pos hd] at hr
        exact hdir r hr
      · rw [if_neg hd] at hr
        cases hr
    · exact hrec r hr

/-- Claim C6: every FileRecord yielded by the walker's cutoff filter
satisfies createdTime ≥ cutoff or modifiedTime ≥ cutoff; a file meeting
neither is never included. -/
theorem scanDirectory_cutoff (excl : String → Bool) (cutoff : Int)
    (directoryPath : String) (children : List FSEntry) (depth : Nat)
    (r : FileRecord) (h : r ∈ scanDirectory excl cutoff directoryPath children depth) :
    cutoff ≤ r.createdTime ∨ cutoff ≤ r.modifiedTime := by
  rw [scanDirectory] at h
  by_cases hex : excl directoryPath
  · rw [if_pos hex] at h
    cases h
  · rw [if_neg hex] at h
    exact scanItems_cutoff excl cutoff children depth r h

/-- Witness for C6 on a small tree: the recent file is in the output and
satisfies the cutoff disjunction. -/
theorem scanDirectory_cutoff_witness :
    getDetailedFileInfo c6wNew ∈ scanDirectory (fun _ => false) 40 "R" c6wTree 0 ∧
    ((40 : Int) ≤ (getDetailedFileInfo c6wNew).createdTime ∨
     (40 : Int) ≤ (getDetailedFileInfo c6wNew).modifiedTime) := by
  have hm : getDetailedFileInfo c6wNew ∈ scanDirectory (fun _ => false) 40 "R" c6wTree 0 := by
    simp [scanDirectory, scanItems, c6wTree, isRecentFile, c6wNew, c6wOld, c6wInner]
  exact ⟨hm, scanDirectory_cutoff _ _ _ _ _ _ hm⟩

/-- Helper: stability of the modelled Array.sort in filter form — the
sorted list restricted to any comparator-equivalence class equals the
input restricted to it. -/
theorem mergeSort_filter_stable (le : FileRecord → FileRecord → Bool)
    (htrans : ∀ a b c, le a b = true → le b c = true → le a c = true)
    (htotal : ∀ a b, (le a b || le b a) = true)
    (l : List FileRecord) (p : FileRecord → Bool)
    (hp : ∀ a b, p a = true → p b = true → le a b = true) :
    (l.mergeSort le).filter p = l.filter p := by
  have hpw : (l.filter p).Pairwise (fun a b => le a b = true) := by
    apply List.pairwise_of_forall_mem_list
    intro a ha b hb
    exact hp a b (List.mem_filter.mp ha).2 (List.mem_filter.mp hb).2
  have hsub : (l.filter p).Sublist (l.mergeSort le) :=
    List.sublist_mergeSort htrans htotal hpw (List.filter_sublist l)
  have hsub2 : (l.filter p).Sublist ((l.mergeSort le).filter p) := by
    have h2 := hsub.filter p
    simpa [List.filter_filter] using h2
  have hperm : ((l.mergeSort le).filter p).Perm (l.filter p) :=
    (l.mergeSort_perm le).filter p
  exact (hsub2.eq_of_length hperm.length_eq.symm).symm

/-- Claim C8, amended: largestFiles/oldestFiles/newestFiles are the first
10 of a stable sort (by size descending, createdTime ascending, and
createdTime descending respectively) of getAllFiles — ties are broken by
the order of getAllFiles, i.e. category-major (categories in declared
order, scan order within a category), not by original scan order. -/
theorem topN_stable (res : ClassificationResult) :
    (∃ L : List FileRecord, L.Perm (getAllFiles res) ∧
      L.Pairwise (fun a b => b.size ≤ a.size) ∧
      (∀ v : Nat, L.filter (fun r => decide (r.size = v)) =
        (getAllFiles res).filter (fun r => decide (r.size = v))) ∧
      findLargestFiles res = L.take 10) ∧
    (∃ L : List FileRecord, L.Perm (getAllFiles res) ∧
      L.Pairwise (fun a b => a.createdTime ≤ b.createdTime) ∧
      (∀ t : Int, L.filter (fun r => decide (r.createdTime = t)) =
        (getAllFiles res).filter (fun r => decide (r.createdTime = t))) ∧
      findOldestFiles res = L.take 10) ∧
    (∃ L : List FileRecord, L.Perm (getAllFiles res) ∧
      L.Pairwise (fun a b => b.createdTime ≤ a.createdTime) ∧
      (∀ t : Int, L.filter (fun r => decide (r.createdTime = t)) =
        (getAllFiles res).filter (fun r => decide (r.createdTime = t))) ∧
      findNewestFiles res = L.take 10) := by
  refine ⟨?_, ?_, ?_⟩
  · have htrans : ∀ a b c : FileRecord,
        (fun a b => decide (b.size ≤ a.size)) a b = true →
        (fun a b => decide (b.size ≤ a.size)) b c = true →
        (fun a b => decide (b.size ≤ a.size)) a c = true := fun a b c hab hbc =>
      decide_eq_true (Nat.le_trans (of_decide_eq_true hbc) (of_decide_eq_true hab))
    have htotal : ∀ a b : FileRecord,
        ((fun a b => decide (b.size ≤ a.size)) a b ||
         (fun a b => decide (b.size ≤ a.size)) b a) = true := by
      intro a b
      rcases Nat.le_total b.size a.size with h | h <;> simp [h]
    refine ⟨(getAllFiles res).mergeSort (fun a b => decide (b.size ≤ a.size)),
      List.mergeSort_perm _ _, ?_, ?_, rfl⟩
    · have h := List.sorted_mergeSort htrans htotal (getAllFiles res)
      exact h.imp fun hab => of_decide_eq_true hab
    · intro v
      refine mergeSort_filter_stable _ htrans htotal _ _ ?_
      intro a b ha hb
      have ha2 := of_decide_eq_true ha
      have hb2 := of_decide_eq_true hb
      exact decide_eq_true (by omega)
  · have htrans : ∀ a b c : FileRecord,
        (fun a b => decide (a.createdTime ≤ b.createdTime)) a b = true →
        (fun a b => decide (a.createdTime ≤ b.createdTime)) b c = true →
        (fun a b => decide (a.createdTime ≤ b.createdTime)) a c = true := fun a b c hab hbc =>
      decide_eq_true (le_trans (of_decide_eq_true hab) (of_decide_eq_true hbc))
    have htotal : ∀ a b : FileRecord,
        ((fun a b => decide (a.createdTime ≤ b.createdTime)) a b ||
         (fun a b => decide (a.createdTime ≤ b.createdTime)) b a) = true := by
      intro a b
      rcases le_total a.createdTime b.createdTime with h | h <;> simp [h]
    refine ⟨(getAllFiles res).mergeSort (fun a b => decide (a.createdTime ≤ b.createdTime)),
      List.mergeSort_perm _ _, ?_, ?_, rfl⟩
    · have h := List.sorted_mergeSort htrans htotal (getAllFiles res)
      exact h.imp fun hab => of_decide_eq_true hab
    · intro t
      refine mergeSort_filter_stable _ htrans htotal _ _ ?_
      intro a b ha hb
      have ha2 := of_decide_eq_true ha
      have hb2 := of_decide_eq_true hb
      exact decide_eq_true (by omega)
  · have htrans : ∀ a b c : FileRecord,
        (fun a b => decide (b.createdTime ≤ a.createdTime)) a b = true →
        (fun a b => decide (b.createdTime ≤ a.createdTime)) b c = true →
        (fun a b => decide (b.createdTime ≤ a.createdTime)) a c = true := fun a b c hab hbc =>
      decide_eq_true (le_trans (of_decide_eq_true hbc) (of_decide_eq_true hab))
    have htotal : ∀ a b : FileRecord,
        ((fun a b => decide (b.createdTime ≤ a.createdTime)) a b ||
         (fun a b => decide (b.createdTime ≤ a.createdTime)) b a) = true := by
      intro a b
      rcases le_total b.createdTime a.createdTime with h | h <;> simp [h]
    refine ⟨(getAllFiles res).mergeSort (fun a b => decide (b.createdTime ≤ a.createdTime)),
      List.mergeSort_perm _ _, ?_, ?_, rfl⟩
    · have h := List.sorted_mergeSort htrans htotal (getAllFiles res)
      exact h.imp fun hab => of_decide_eq_true hab
    · intro t
      refine mergeSort_filter_stable _ htrans htotal _ _ ?_
      intro a b ha hb
      have ha2 := of_decide_eq_true ha
      have hb2 := of_decide_eq_true hb
      exact decide_eq_true (by omega)

set_option maxRecDepth 100000 in
/-- Claim C8, counterexample: `x.jpg` and `y.pdf` have equal size, with
`x.jpg` first in scan order; tie-breaking by scan order would put the
x record first in largestFiles, but the code returns the y record first,
because getAllFiles flattens category-major (文档类 before 图片类). -/
theorem findLargestFiles_tie_by_category_order :
    classifyFiles [c8x, c8y] = Except.ok c8res ∧
    c8x.size = c8y.size ∧
    findLargestFiles c8res = [c8yC, c8xC] ∧
    findLargestFiles c8res ≠ [c8xC, c8yC] := by
  have h : classifyFiles [c8x, c8y] = Except.ok c8res := by decide
  have hall : getAllFiles c8res = [c8yC, c8xC] := by decide
  have hsorted : List.Pairwise
      (fun a b => (fun a b => decide (b.size ≤ a.size)) a b = true) [c8yC, c8xC] := by
    decide
  have hl : findLargestFiles c8res = [c8yC, c8xC] := by
    rw [findLargestFiles, hall, List.mergeSort_of_sorted hsorted]
    rfl
  exact ⟨h, by decide, hl, by rw [hl]; decide⟩

end FileArrange
